import Mathlib

/-!
Verification of the `gover` Go-version scraper against its specification.

The Go sources are shallowly embedded: pure helper functions
(`extractMajorVersion`, `generateVersionStrings`, `parseVersionMinor`,
`extractVersionFromURL`) are translated directly; the two regular
expressions are compiled by hand into character-list matchers with Go's
leftmost-first semantics; the scraping entry points
(`scrapeReleaseHistory`, `scrapeGoVersions`) are modelled as functions of
a fetch oracle, with the `sync.WaitGroup` accounting made explicit.
Go `int` is modelled as `Int` with the 64-bit range checks of
`strconv.Atoi` written out.
-/

namespace Gover

/-! ### Decimal digits and `strconv.Atoi`

`strconv.Atoi` on a 64-bit platform: optional sign, one or more decimal
digits, error when empty, when a non-digit appears, or when the value
leaves the `int64` range. -/

/-- Numeric value of a decimal digit string (most significant first). -/
def digitsVal (cs : List Char) : Nat :=
  cs.foldl (fun a c => 10 * a + (c.toNat - 48)) 0

/-- Magnitude part of `strconv.Atoi`: digit run plus the `int64` range check. -/
def atoiMag (ds : List Char) (neg : Bool) : Option Int :=
  if ds.isEmpty then none
  else if !(ds.all Char.isDigit) then none
  else if neg then
    if digitsVal ds ≤ 2 ^ 63 then some (-(digitsVal ds : Int)) else none
  else
    if digitsVal ds ≤ 2 ^ 63 - 1 then some ((digitsVal ds : Int)) else none

/-- `strconv.Atoi` over the characters of the input string. -/
def atoiChars : List Char → Option Int
  | [] => none
  | c :: rest =>
    if c = '+' then atoiMag rest false
    else if c = '-' then atoiMag rest true
    else atoiMag (c :: rest) false

/-- `parseVersionMinor` on the character list: `strings.HasPrefix`/`TrimPrefix`
with prefix `"go1."`, then `strconv.Atoi`, returning 0 on any failure. -/
def parseVersionMinorL : List Char → Int
  | 'g' :: 'o' :: '1' :: '.' :: rest => (atoiChars rest).getD 0
  | _ => 0

/-- Embedding of Go `parseVersionMinor` (pkg/scraper and the gover package):
extracts the minor number from `"go1.<minor>"`, 0 if parsing fails. -/
def parseVersionMinor (s : String) : Int :=
  parseVersionMinorL s.data

/-! ### `Nat.repr` produces the decimal digits back -/

theorem digitsVal_append_singleton (xs : List Char) (c : Char) :
    digitsVal (xs ++ [c]) = 10 * digitsVal xs + (c.toNat - 48) := by
  simp [digitsVal, List.foldl_append]

theorem digitChar_isDigit {d : Nat} (h : d < 10) :
    (Nat.digitChar d).isDigit = true := by
  interval_cases d <;> decide

theorem digitChar_toNat {d : Nat} (h : d < 10) :
    (Nat.digitChar d).toNat - 48 = d := by
  interval_cases d <;> decide

theorem toDigitsCore_spec (n : Nat) : ∀ (fuel : Nat) (ds : List Char), n < fuel →
    ∃ out : List Char, Nat.toDigitsCore 10 fuel n ds = out ++ ds ∧ out ≠ [] ∧
      (∀ c ∈ out, c.isDigit) ∧ digitsVal out = n := by
  induction n using Nat.strong_induction_on with
  | _ n ih =>
    intro fuel ds hfuel
    match fuel, hfuel with
    | fuel + 1, _ =>
      by_cases hz : n / 10 = 0
      · refine ⟨[Nat.digitChar (n % 10)], ?_, by simp, ?_, ?_⟩
        · simp [Nat.toDigitsCore, hz]
        · intro c hc
          simp only [List.mem_singleton] at hc
          subst hc
          exact digitChar_isDigit (Nat.mod_lt _ (by omega))
        · have : digitsVal [Nat.digitChar (n % 10)] =
              (Nat.digitChar (n % 10)).toNat - 48 := by
            simp [digitsVal]
          rw [this, digitChar_toNat (Nat.mod_lt _ (by omega))]
          omega
      · have hlt : n / 10 < n := by omega
        have hf : n / 10 < fuel := by omega
        obtain ⟨out, hout, hne, hdig, hval⟩ :=
          ih (n / 10) hlt fuel (Nat.digitChar (n % 10) :: ds) hf
        refine ⟨out ++ [Nat.digitChar (n % 10)], ?_, by simp, ?_, ?_⟩
        · simp only [Nat.toDigitsCore, hz, if_false]
          rw [hout, List.append_assoc]
          rfl
        · intro c hc
          rcases List.mem_append.mp hc with h | h
          · exact hdig c h
          · simp only [List.mem_singleton] at h
            subst h
            exact digitChar_isDigit (Nat.mod_lt _ (by omega))
        · rw [digitsVal_append_singleton, hval,
            digitChar_toNat (Nat.mod_lt _ (by omega))]
          omega

theorem repr_data_spec (n : Nat) :
    (Nat.repr n).data ≠ [] ∧ (∀ c ∈ (Nat.repr n).data, c.isDigit) ∧
      digitsVal (Nat.repr n).data = n := by
  obtain ⟨out, hout, hne, hdig, hval⟩ :=
    toDigitsCore_spec n (n + 1) [] (Nat.lt_succ_self n)
  have hdata : (Nat.repr n).data = out := by
    simp only [Nat.repr, Nat.toDigits, List.asString]
    rw [hout, List.append_nil]
  rw [hdata]
  exact ⟨hne, hdig, hval⟩

theorem repr_injective {a b : Nat} (h : Nat.repr a = Nat.repr b) : a = b := by
  have ha := (repr_data_spec a).2.2
  have hb := (repr_data_spec b).2.2
  rw [← ha, ← hb, h]

theorem isDigit_ne_plus {c : Char} (h : c.isDigit = true) : ¬ c = '+' := by
  intro he
  subst he
  simp [Char.isDigit] at h

theorem isDigit_ne_minus {c : Char} (h : c.isDigit = true) : ¬ c = '-' := by
  intro he
  subst he
  simp [Char.isDigit] at h

theorem atoiChars_digits {ds : List Char} (hne : ds ≠ [])
    (hdig : ∀ c ∈ ds, c.isDigit) :
    atoiChars ds = if digitsVal ds ≤ 2 ^ 63 - 1 then some ((digitsVal ds : Int))
      else none := by
  match ds, hne with
  | c :: rest, _ =>
    have hc : c.isDigit := hdig c (List.mem_cons_self c rest)
    have hall : (c :: rest).all Char.isDigit = true := by
      rw [List.all_eq_true]
      exact hdig
    rw [atoiChars, if_neg (isDigit_ne_plus hc), if_neg (isDigit_ne_minus hc),
      atoiMag]
    simp [hall]

theorem atoiChars_repr (m : Nat) (h : m ≤ 2 ^ 63 - 1) :
    atoiChars (Nat.repr m).data = some (m : Int) := by
  obtain ⟨hne, hdig, hval⟩ := repr_data_spec m
  rw [atoiChars_digits hne hdig, hval, if_pos h]

theorem data_append (a b : String) : (a ++ b).data = a.data ++ b.data := rfl

theorem parseVersionMinor_canon (m : Nat) (h : m ≤ 2 ^ 63 - 1) :
    parseVersionMinor ("go1." ++ Nat.repr m) = (m : Int) := by
  have hdata : ("go1." ++ Nat.repr m).data =
      'g' :: 'o' :: '1' :: '.' :: (Nat.repr m).data := by
    rw [data_append]
    rfl
  rw [parseVersionMinor, hdata, parseVersionMinorL, atoiChars_repr m h]
  rfl

/-! ### The regular expression `go1\.(\d+)` of `extractMajorVersion`

Go's `regexp` has leftmost-first semantics.  For this pattern a match at a
given start position is `"go1."` followed by a maximal nonempty digit run
(the greedy `\d+` never needs to backtrack: nothing follows the group), and
`FindStringSubmatch` returns the match at the earliest start position. -/

/-- Digits group of a match of `go1\.(\d+)` anchored at the head of the list. -/
def matchGo1At (cs : List Char) : Option (List Char) :=
  match cs with
  | 'g' :: 'o' :: '1' :: '.' :: rest =>
    let ds := rest.takeWhile Char.isDigit
    if ds.isEmpty then none else some ds
  | _ => none

/-- Digits group of the leftmost match of `go1\.(\d+)`. -/
def findGo1 : List Char → Option (List Char)
  | [] => none
  | c :: cs =>
    match matchGo1At (c :: cs) with
    | some r => some r
    | none => findGo1 cs

/-- Embedding of Go `extractMajorVersion`: digits group of the first
`go1\.(\d+)` match fed to `strconv.Atoi`; `none` is the error return. -/
def extractMajorVersion (s : String) : Option Int :=
  (findGo1 s.data).bind atoiChars

/-! ### The release-history regular expression

`(go1\.\d+)(?:\.\d+)?\s+\(released\s+(\d{4}-\d{2}-\d{2})\)`, matched with
leftmost-first semantics against each `h2` heading text.  For this pattern
greedy matching never needs to backtrack: after each digit run the pattern
requires a non-digit, and after each whitespace run a non-whitespace. -/

/-- Go regexp `\s`: `[\t\n\f\r ]`. -/
def isGoSpace (c : Char) : Bool :=
  c = '\t' || c = '\n' || c = '\x0c' || c = '\r' || c = ' '

/-- Match the version-date pattern anchored at the head of the list,
returning the two capture groups (major-minor version, date). -/
def matchVDAt (cs : List Char) : Option (String × String) :=
  match cs with
  | 'g' :: 'o' :: '1' :: '.' :: rest =>
    let ds := rest.takeWhile Char.isDigit
    let r1 := rest.dropWhile Char.isDigit
    if ds.isEmpty then none else
    let r2 := match r1 with
      | '.' :: r1p =>
        if (r1p.takeWhile Char.isDigit).isEmpty then r1
        else r1p.dropWhile Char.isDigit
      | _ => r1
    let r3 := r2.dropWhile isGoSpace
    if (r2.takeWhile isGoSpace).isEmpty then none else
    match r3 with
    | '(' :: 'r' :: 'e' :: 'l' :: 'e' :: 'a' :: 's' :: 'e' :: 'd' :: r4 =>
      let r5 := r4.dropWhile isGoSpace
      if (r4.takeWhile isGoSpace).isEmpty then none else
      match r5 with
      | y1 :: y2 :: y3 :: y4 :: '-' :: m1 :: m2 :: '-' :: d1 :: d2 :: ')' :: _ =>
        if y1.isDigit && y2.isDigit && y3.isDigit && y4.isDigit &&
           m1.isDigit && m2.isDigit && d1.isDigit && d2.isDigit then
          some (("go1." ++ ds.asString),
                ([y1, y2, y3, y4, '-', m1, m2, '-', d1, d2]).asString)
        else none
      | _ => none
    | _ => none
  | _ => none

/-- Leftmost match of the version-date pattern. -/
def findVD : List Char → Option (String × String)
  | [] => none
  | c :: cs =>
    match matchVDAt (c :: cs) with
    | some r => some r
    | none => findVD cs

/-- Capture groups of `versionDateRe.FindStringSubmatch` on a heading text:
`some (version, date)` when the heading matches, `none` otherwise. -/
def matchVersionDate (s : String) : Option (String × String) :=
  findVD s.data

/-! ### `generateVersionStrings` -/

/-- Embedding of Go `generateVersionStrings`: `["go1.1", ..., "go1.<n>"]`,
appended in ascending loop order. -/
def generateVersionStrings (n : Nat) : List String :=
  (List.range n).map (fun i => "go1." ++ Nat.repr (i + 1))

/-! ### `extractVersionFromURL` -/

/-- Index of the last `'/'` (the Go loop scanning from the end, `0` when
no slash is found). -/
def lastSlashIdx (cs : List Char) : Nat :=
  match cs.reverse.findIdx? (fun c => c = '/') with
  | some j => cs.length - 1 - j
  | none => 0

/-- Embedding of Go `extractVersionFromURL`: the segment after the last
slash when the URL is long enough, has no trailing slash, and the segment
looks like `go...`; `""` otherwise. -/
def extractVersionFromURL (url : String) : String :=
  let cs := url.data
  if cs.length < 4 then ""
  else if cs.getLast? = some '/' then ""
  else
    let ls := lastSlashIdx cs
    if ls ≠ 0 ∧ ls < cs.length - 1 then
      let seg := cs.drop (ls + 1)
      if 3 ≤ seg.length ∧ seg.take 2 = ['g', 'o'] then seg.asString else ""
    else ""

/-! ### Data model (pkg/model) -/

/-- A specific change to a symbol within a package. -/
structure SymbolChange where
  type : String
  symbol : String
  description : String
deriving DecidableEq

/-- A high-level category of changes for one version. -/
structure ChangeCategory where
  category : String
  title : String := ""
  description : String := ""
  examples : List String := []
  package : String := ""
  changes : List SymbolChange := []
deriving DecidableEq

/-- The data collected for one Go version. -/
structure VersionData where
  version : String
  releaseDate : String := ""
  changes : List ChangeCategory := []
deriving DecidableEq

/-! ### DOM model

The HTML/DOM engine is an external collaborator (spec section 6); a fetched
page is modelled as its sibling elements in document order, each carrying
its tag and extracted text.  `ChildText "h1"` concatenates the text of the
`h1` elements; `el.DOM.Next()` is the next element in the list. -/

/-- One HTML element: tag name and extracted text. -/
structure Elem where
  tag : String
  text : String
deriving DecidableEq

/-- `e.ChildText "h1"`: concatenated text of the `h1` elements. -/
def childTextH1 (es : List Elem) : String :=
  ((es.filter (fun e => e.tag = "h1")).map Elem.text).foldl (· ++ ·) ""

/-- The `ForEach "h2"` loop: one `ChangeCategory` per `h2` in document
order, whose description is the text of the immediately following sibling
when that sibling is a `p`, and `""` otherwise. -/
def h2Categories : List Elem → List ChangeCategory
  | [] => []
  | e :: rest =>
    if e.tag = "h2" then
      { category := e.text,
        description := match rest with
          | n :: _ => if n.tag = "p" then n.text else ""
          | [] => "" } :: h2Categories rest
    else h2Categories rest

/-- Per-page extraction of the `OnHTML "html"` handler: a synthetic
`Overview` category holding the `h1` text (appended only when that text is
nonempty, mirroring the `if mainTitle != ""` guard), then the `h2` loop. -/
def extractChanges (es : List Elem) : List ChangeCategory :=
  (if childTextH1 es ≠ "" then
    [{ category := "Overview", description := childTextH1 es }]
  else []) ++ h2Categories es

/-! ### Release-history index (`scrapeReleaseHistory`)

The Go map is modelled as an association list looked up by key; insertion
happens only when the key is absent (`if _, exists := ...; !exists`). -/

/-- First value stored under a key (Go map lookup). -/
def lookupD : List (String × String) → String → Option String
  | [], _ => none
  | (k, d) :: rest, v => if k = v then some d else lookupD rest v

/-- Insert a binding only when the key is not yet present. -/
def insertFresh (m : List (String × String)) (k d : String) :
    List (String × String) :=
  if (lookupD m k).isSome then m else m ++ [(k, d)]

/-- The `OnHTML "h2"` handler folded over the heading texts in document
order. -/
def indexSteps (acc : List (String × String)) : List String →
    List (String × String)
  | [] => acc
  | h :: hs =>
    indexSteps
      (match matchVersionDate h with
       | some (k, d) => insertFresh acc k d
       | none => acc) hs

/-- The `releaseDates` map built by `scrapeReleaseHistory` from the `h2`
heading texts of the release-history page. -/
def buildReleaseIndex (headings : List String) : List (String × String) :=
  indexSteps [] headings

/-- Embedding of `scrapeReleaseHistory` as a function of the fetched page's
`h2` heading texts (`none` models a transport failure of `c.Visit`):
error on transport failure or an empty index, the index otherwise. -/
def scrapeReleaseHistoryRun (fetched : Option (List String)) :
    Except String (List (String × String)) :=
  match fetched with
  | none => Except.error "failed to visit release history page"
  | some hs =>
    let idx := buildReleaseIndex hs
    if idx.isEmpty then
      Except.error "no release dates found on https://go.dev/doc/devel/release"
    else Except.ok idx

/-! ### `scrapeGoVersions`

The per-version fetch is a fan-out over `versions`: each loop iteration
does `wg.Add(1)` and dispatches a fetch.  The `OnHTML "html"` handler runs
once per successfully fetched page; it returns early (without `wg.Done()`)
when no version can be extracted from the URL, otherwise appends one
`VersionData` under the mutex and calls `wg.Done()`.  The `OnError`
handler only logs; it does not call `wg.Done()`.  Hence `wg.Wait()`
returns exactly when every dispatched fetch produced an appended record;
`scrapeGoVersionsRun` returns `none` when the counter never reaches zero
(the call blocks forever). -/

/-- Documentation URL for one version. -/
def docURL (v : String) : String := "https://go.dev/doc/" ++ v

/-- The body of the `OnHTML "html"` handler for one fetched page. -/
def buildVersionData (ver : String) (page : List Elem)
    (dates : List (String × String)) : VersionData :=
  { version := ver,
    releaseDate := (lookupD dates ver).getD "",
    changes := extractChanges page }

/-- Records appended to `allVersionData`: one per version whose fetch
succeeded and whose URL yields a version string. -/
def collectedData (versions : List String)
    (fetch : String → Option (List Elem))
    (dates : List (String × String)) : List VersionData :=
  versions.filterMap (fun v =>
    match fetch (docURL v) with
    | none => none
    | some page =>
      let ver := extractVersionFromURL (docURL v)
      if ver = "" then none else some (buildVersionData ver page dates))

/-- The ordering of the `slices.SortFunc` call: `a` before `b` when
`-cmp.Compare(minor a, minor b) ≤ 0`, i.e. descending minor. -/
def versionRel (a b : VersionData) : Prop :=
  parseVersionMinor b.version ≤ parseVersionMinor a.version

instance : DecidableRel versionRel := fun _ _ =>
  inferInstanceAs (Decidable (_ ≤ _))

instance : IsTotal VersionData versionRel :=
  ⟨fun a b => Int.le_total (parseVersionMinor b.version)
    (parseVersionMinor a.version)⟩

instance : IsTrans VersionData versionRel :=
  ⟨fun _ _ _ h1 h2 => le_trans h2 h1⟩

/-- Sorting step at the end of `scrapeGoVersions`: a comparison sort under
`versionRel`.  With the distinct keys required by the claims the sorted
permutation is unique, so the choice of algorithm in the model is
immaterial; `insertionSort` is used. -/
def sortVersionData (l : List VersionData) : List VersionData :=
  l.insertionSort versionRel

/-- Embedding of `scrapeGoVersions` over a fetch oracle: `wg.Add` runs once
per version, `wg.Done` once per collected record, so `wg.Wait()` returns
exactly when the two counts agree; `none` models the call never returning.
On return the collected records are sorted descending by minor. -/
def scrapeGoVersionsRun (versions : List String)
    (fetch : String → Option (List Elem))
    (dates : List (String × String)) : Option (List VersionData) :=
  if (collectedData versions fetch dates).length = versions.length then
    some (sortVersionData (collectedData versions fetch dates))
  else none

/-! ### Helper lemmas -/

theorem str_ext {a b : String} (h : a.data = b.data) : a = b := by
  cases a
  cases b
  exact congrArg String.mk h

theorem go1_append_injective {x y : String}
    (h : "go1." ++ x = "go1." ++ y) : x = y := by
  have hd := congrArg String.data h
  rw [data_append, data_append] at hd
  exact str_ext (List.append_cancel_left hd)

/-- Left-biased choice on optional dates. -/
def orD : Option String → Option String → Option String
  | some d, _ => some d
  | none, b => b

@[simp] theorem orD_none_left (b : Option String) : orD none b = b := rfl

@[simp] theorem orD_none_right (a : Option String) : orD a none = a := by
  cases a <;> rfl

theorem orD_assoc (a b c : Option String) :
    orD (orD a b) c = orD a (orD b c) := by
  cases a <;> rfl

theorem lookupD_append (a b : List (String × String)) (v : String) :
    lookupD (a ++ b) v = orD (lookupD a v) (lookupD b v) := by
  induction a with
  | nil => rfl
  | cons kd rest ih =>
    obtain ⟨k, d⟩ := kd
    by_cases hk : k = v
    · simp [lookupD, hk, orD]
    · simp [lookupD, hk, ih]

theorem indexSteps_lookup (hs : List String) :
    ∀ (acc : List (String × String)) (v : String),
      lookupD (indexSteps acc hs) v =
        orD (lookupD acc v) (lookupD (hs.filterMap matchVersionDate) v) := by
  induction hs with
  | nil =>
    intro acc v
    simp [indexSteps, List.filterMap, lookupD]
  | cons h hs ih =>
    intro acc v
    rw [indexSteps]
    cases hm : matchVersionDate h with
    | none =>
      simp only [hm]
      rw [ih acc v, List.filterMap_cons, hm]
    | some kd =>
      obtain ⟨k, d⟩ := kd
      simp only [hm]
      rw [ih (insertFresh acc k d) v, List.filterMap_cons, hm]
      rw [insertFresh]
      by_cases hk : (lookupD acc k).isSome
      · rw [if_pos hk]
        by_cases hkv : k = v
        · subst hkv
          obtain ⟨x, hx⟩ := Option.isSome_iff_exists.mp hk
          rw [hx]
          simp [lookupD, orD]
        · rw [lookupD, if_neg hkv]
      · rw [if_neg hk]
        rw [lookupD_append, orD_assoc]
        by_cases hkv : k = v
        · subst hkv
          have hnone : lookupD acc k = none :=
            Option.not_isSome_iff_eq_none.mp hk
          rw [hnone]
          simp [lookupD, orD]
        · simp [lookupD, hkv]

theorem indexSteps_ne_nil (hs : List String) :
    ∀ acc : List (String × String), acc ≠ [] → indexSteps acc hs ≠ [] := by
  induction hs with
  | nil => intro acc hacc; exact hacc
  | cons h hs ih =>
    intro acc hacc
    rw [indexSteps]
    cases hm : matchVersionDate h with
    | none => exact ih acc hacc
    | some kd =>
      obtain ⟨k, d⟩ := kd
      refine ih (insertFresh acc k d) ?_
      unfold insertFresh
      by_cases hk : (lookupD acc k).isSome
      · rw [if_pos hk]; exact hacc
      · rw [if_neg hk]; simp

theorem buildReleaseIndex_eq_nil_iff (hs : List String) :
    buildReleaseIndex hs = [] ↔ ∀ h ∈ hs, matchVersionDate h = none := by
  induction hs with
  | nil => simp [buildReleaseIndex, indexSteps]
  | cons h hs ih =>
    rw [buildReleaseIndex, indexSteps]
    cases hm : matchVersionDate h with
    | none =>
      simp only [hm]
      rw [show indexSteps [] hs = buildReleaseIndex hs from rfl, ih]
      simp [hm]
    | some kd =>
      obtain ⟨k, d⟩ := kd
      simp only [hm]
      have hne : indexSteps (insertFresh [] k d) hs ≠ [] := by
        apply indexSteps_ne_nil
        simp [insertFresh, lookupD]
      simp only [hne, false_iff]
      intro hall
      have := hall h (List.mem_cons_self h hs)
      rw [this] at hm
      exact Option.noConfusion hm

/-! ### Claim theorems -/

theorem matchGo1At_digits {cs ds : List Char} (h : matchGo1At cs = some ds) :
    ds ≠ [] ∧ ∀ c ∈ ds, c.isDigit := by
  unfold matchGo1At at h
  split at h
  · dsimp only at h
    split at h
    · exact absurd h (by simp)
    · rename_i hne
      injection h with h
      subst h
      refine ⟨?_, ?_⟩
      · intro hnil
        rw [hnil] at hne
        exact hne rfl
      · intro c hc
        exact List.mem_takeWhile_imp hc
  · exact absurd h (by simp)

theorem findGo1_digits {cs ds : List Char} (h : findGo1 cs = some ds) :
    ds ≠ [] ∧ ∀ c ∈ ds, c.isDigit := by
  induction cs with
  | nil => exact absurd h (by simp [findGo1])
  | cons c cs ih =>
    rw [findGo1] at h
    cases hm : matchGo1At (c :: cs) with
    | some r =>
      rw [hm] at h
      injection h with h
      subst h
      exact matchGo1At_digits hm
    | none =>
      rw [hm] at h
      exact ih h

/-- C4 counterexample: `"go1.9223372036854775808"` contains a substring
matching `go1\.(\d+)` whose digits group has value `2^63` (outside the Go
`int` range), yet `extractMajorVersion` returns an error, contradicting the
claim that every input containing such a substring yields the digits
group's integer value. -/
theorem extractMajorVersion_overflow_cex :
    (findGo1 ("go1.9223372036854775808".data)).map digitsVal =
      some 9223372036854775808 ∧
    extractMajorVersion "go1.9223372036854775808" = none := by decide

/-- C4 (amended): `extractMajorVersion` returns the integer value of the
digits group of the first `go1\.(\d+)` match whenever that value fits in a
signed 64-bit integer, returns an error when the digits group overflows,
and returns an error when no substring matches; `"go1.24.0\n"` yields `24`
and `"garbage"` an error. -/
theorem extractMajorVersion_first_match (s : String) :
    extractMajorVersion s = (findGo1 s.data).bind
      (fun ds => if digitsVal ds ≤ 2 ^ 63 - 1 then some ((digitsVal ds : Int))
        else none) ∧
    extractMajorVersion "go1.24.0\n" = some 24 ∧
    extractMajorVersion "garbage" = none := by
  refine ⟨?_, by decide, by decide⟩
  rw [extractMajorVersion]
  cases hf : findGo1 s.data with
  | none => rfl
  | some ds =>
    obtain ⟨hne, hdig⟩ := findGo1_digits hf
    simp only [Option.some_bind]
    exact atoiChars_digits hne hdig

/-- C3: the release-date index is first-match-wins per key: for every
sequence of heading texts, looking up a version in the built index gives
the date of the first heading whose match yields that version (the regex
already discards the patch suffix from the key), and the spec's two-heading
example yields exactly `go1.24 ↦ 2025-02-11`. -/
theorem releaseIndex_first_match_wins (headings : List String) (v : String) :
    lookupD (buildReleaseIndex headings) v =
      lookupD (headings.filterMap matchVersionDate) v ∧
    buildReleaseIndex
      ["go1.24.0 (released 2025-02-11)", "go1.24.1 (released 2025-03-04)"] =
      [("go1.24", "2025-02-11")] := by
  refine ⟨?_, by decide⟩
  rw [buildReleaseIndex, indexSteps_lookup]
  rfl

/-- C7: `scrapeReleaseHistory` (absent transport failure) fails exactly
when zero headings match the version-date pattern, and otherwise returns
the index, which is nonempty. -/
theorem scrapeReleaseHistory_zero_match (hs : List String) :
    (scrapeReleaseHistoryRun (some hs) =
        Except.error "no release dates found on https://go.dev/doc/devel/release"
      ↔ ∀ h ∈ hs, matchVersionDate h = none) ∧
    (scrapeReleaseHistoryRun (some hs) = Except.ok (buildReleaseIndex hs)
      ↔ ∃ h ∈ hs, (matchVersionDate h).isSome = true) ∧
    (buildReleaseIndex hs = [] ↔ ∀ h ∈ hs, matchVersionDate h = none) := by
  have hiff := buildReleaseIndex_eq_nil_iff hs
  have hex : (∃ h ∈ hs, (matchVersionDate h).isSome = true) ↔
      ¬ ∀ h ∈ hs, matchVersionDate h = none := by
    constructor
    · rintro ⟨h, hh, hsome⟩ hall
      rw [hall h hh] at hsome
      exact Bool.noConfusion hsome
    · intro hna
      rcases not_forall.mp hna with ⟨h, hh⟩
      rcases Classical.not_imp.mp hh with ⟨hmem, hne⟩
      exact ⟨h, hmem, Option.isSome_iff_ne_none.mpr hne⟩
  by_cases hnil : buildReleaseIndex hs = []
  · have hrun : scrapeReleaseHistoryRun (some hs) =
        Except.error
          "no release dates found on https://go.dev/doc/devel/release" := by
      simp [scrapeReleaseHistoryRun, hnil]
    refine ⟨?_, ?_, hiff⟩
    · simpa [hrun] using hiff.mp hnil
    · rw [hrun]
      simp only [hex]
      constructor
      · intro hcontra
        exact Except.noConfusion hcontra
      · intro hcontra
        exact absurd (hiff.mp hnil) hcontra
  · have hrun : scrapeReleaseHistoryRun (some hs) =
        Except.ok (buildReleaseIndex hs) := by
      simp only [scrapeReleaseHistoryRun]
      rw [if_neg (by simpa [List.isEmpty_iff] using hnil)]
    refine ⟨?_, ?_, hiff⟩
    · rw [hrun]
      constructor
      · intro hcontra
        exact Except.noConfusion hcontra
      · intro hall
        exact absurd (hiff.mpr hall) hnil
    · rw [hrun]
      simp only [hex]
      constructor
      · intro _
        exact fun hall => hnil (hiff.mpr hall)
      · intro _
        trivial

theorem str_empty_append (t : String) : "" ++ t = t := by
  apply str_ext
  rw [data_append]
  rfl

/-- C5: per-page extraction: a page with one nonempty-titled `h1` and two
`h2` elements where only the first `h2` is immediately followed by a `p`
yields exactly the synthetic `Overview` category (description = the `h1`
text) plus one category per `h2`, the first with the paragraph text as its
description and the second with an empty description; and in general the
`h2` pass yields one category per `h2` element in document order, labelled
with that heading's text. -/
theorem extractChanges_overview_h2 (t ca da cb : String) (es : List Elem)
    (ht : ¬ t = "") :
    extractChanges [⟨"h1", t⟩, ⟨"h2", ca⟩, ⟨"p", da⟩, ⟨"h2", cb⟩] =
      [{ category := "Overview", description := t },
       { category := ca, description := da },
       { category := cb }] ∧
    (h2Categories es).map ChangeCategory.category =
      (es.filter (fun e => e.tag == "h2")).map Elem.text := by
  constructor
  · have hct : childTextH1 [⟨"h1", t⟩, ⟨"h2", ca⟩, ⟨"p", da⟩, ⟨"h2", cb⟩] = t := by
      simp [childTextH1, str_empty_append]
    simp [extractChanges, hct, ht, h2Categories]
  · induction es with
    | nil => rfl
    | cons e rest ih =>
      by_cases htag : e.tag = "h2"
      · simp [h2Categories, htag, ih]
      · simp [h2Categories, htag, ih]

/-- C5 witness: the theorem at a concrete page. -/
theorem extractChanges_overview_h2_witness :
    extractChanges [⟨"h1", "Go 1.22"⟩, ⟨"h2", "Language"⟩,
        ⟨"p", "Loop variables"⟩, ⟨"h2", "Ports"⟩] =
      [{ category := "Overview", description := "Go 1.22" },
       { category := "Language", description := "Loop variables" },
       { category := "Ports" }] ∧
    (h2Categories []).map ChangeCategory.category =
      (List.filter (fun e => e.tag == "h2") []).map Elem.text :=
  extractChanges_overview_h2 "Go 1.22" "Language" "Loop variables" "Ports" []
    (by decide)

/-- C2: for lists of `VersionData` whose version identifiers are distinct
and of the form `go1.<minor>` (minor a Go `int`), the sort at the end of
`ScrapeGoVersions` is strictly descending by numeric minor, and sorting is
idempotent. -/
theorem aggregator_sort_desc_idempotent (l : List VersionData)
    (hform : ∀ x ∈ l, ∃ m : Nat, m ≤ 2 ^ 63 - 1 ∧
      x.version = "go1." ++ Nat.repr m)
    (hdist : (l.map VersionData.version).Nodup) :
    (sortVersionData l).Chain'
      (fun a b => parseVersionMinor b.version < parseVersionMinor a.version) ∧
    sortVersionData (sortVersionData l) = sortVersionData l := by
  have hsorted : (sortVersionData l).Pairwise versionRel :=
    List.sorted_insertionSort versionRel l
  have hperm : List.Perm (sortVersionData l) l :=
    List.perm_insertionSort versionRel l
  refine ⟨?_, List.Sorted.insertionSort_eq hsorted⟩
  have hne : l.Pairwise (fun a b => a.version ≠ b.version) :=
    List.pairwise_map.mp hdist
  have hneS : (sortVersionData l).Pairwise (fun a b => a.version ≠ b.version) :=
    (List.Perm.pairwise_iff (fun h => Ne.symm h) hperm).mpr hne
  apply List.Pairwise.chain'
  apply List.Pairwise.imp_of_mem ?_ (hsorted.and hneS)
  intro a b ha hb hab
  obtain ⟨hle, hvne⟩ := hab
  obtain ⟨ma, hma, hva⟩ := hform a (hperm.mem_iff.mp ha)
  obtain ⟨mb, hmb, hvb⟩ := hform b (hperm.mem_iff.mp hb)
  have hpa : parseVersionMinor a.version = (ma : Int) := by
    rw [hva]
    exact parseVersionMinor_canon ma hma
  have hpb : parseVersionMinor b.version = (mb : Int) := by
    rw [hvb]
    exact parseVersionMinor_canon mb hmb
  have hmne : mb ≠ ma := by
    intro he
    exact hvne (by rw [hva, hvb, he])
  have hle2 : parseVersionMinor b.version ≤ parseVersionMinor a.version := hle
  rw [hpa, hpb] at hle2 ⊢
  exact lt_of_le_of_ne hle2 (by exact_mod_cast hmne)

/-- C2 witness: the theorem at a concrete three-element list (including the
numeric, not lexicographic, comparison of `go1.10` and `go1.2`). -/
theorem aggregator_sort_desc_idempotent_witness :
    (sortVersionData [⟨"go1.2", "", []⟩, ⟨"go1.10", "", []⟩,
        ⟨"go1.3", "", []⟩]).Chain'
      (fun a b => parseVersionMinor b.version < parseVersionMinor a.version) ∧
    sortVersionData (sortVersionData [⟨"go1.2", "", []⟩, ⟨"go1.10", "", []⟩,
        ⟨"go1.3", "", []⟩]) =
      sortVersionData [⟨"go1.2", "", []⟩, ⟨"go1.10", "", []⟩,
        ⟨"go1.3", "", []⟩] := by
  apply aggregator_sort_desc_idempotent
  · intro x hx
    simp only [List.mem_cons, List.not_mem_nil, or_false] at hx
    rcases hx with h | h | h <;> subst h
    · exact ⟨2, by decide, by decide⟩
    · exact ⟨10, by decide, by decide⟩
    · exact ⟨3, by decide, by decide⟩
  · decide

/-! ### C1: the fan-in barrier of `scrapeGoVersions`

Five requested versions of which three fail to fetch. -/

/-- The spec's five requested versions. -/
def versionsFive : List String :=
  ["go1.1", "go1.2", "go1.3", "go1.4", "go1.5"]

/-- A minimal successfully fetched page. -/
def pageStub : List Elem := [⟨"h1", "Go Release Notes"⟩]

/-- Fetch oracle where exactly the first two version pages succeed. -/
def fetchTwoOfFive (u : String) : Option (List Elem) :=
  if u = "https://go.dev/doc/go1.1" ∨ u = "https://go.dev/doc/go1.2" then
    some pageStub
  else none

/-- C1 (code bug): with 5 requested versions of which 3 fetches fail, the
two successful fetches are collected, but the `OnError` path never calls
`wg.Done()`, so the `wg.Wait()` barrier never opens and `ScrapeGoVersions`
never returns (`none` in the model) — the claimed 2-entry successful
return does not happen.  When every fetch succeeds the call does return. -/
theorem scrapeGoVersions_blocks_on_fetch_failure :
    (collectedData versionsFive fetchTwoOfFive []).length = 2 ∧
    scrapeGoVersionsRun versionsFive fetchTwoOfFive [] = none ∧
    (scrapeGoVersionsRun versionsFive (fun _ => some pageStub) []).isSome =
      true := by decide

/-- C8: `extractVersionFromURL` maps `"https://example.org/doc/go1.22"` to
`"go1.22"`, and maps every URL ending in a trailing slash to `""`. -/
theorem extractVersionFromURL_doc_and_slash (u : String)
    (h : u.data.getLast? = some '/') :
    extractVersionFromURL "https://example.org/doc/go1.22" = "go1.22" ∧
    extractVersionFromURL u = "" := by
  refine ⟨by decide, ?_⟩
  unfold extractVersionFromURL
  by_cases hl : u.data.length < 4
  · have hl2 : u.length < 4 := hl
    simp [hl2]
  · have hl2 : ¬ u.length < 4 := hl
    simp [hl2, h]

/-- C8 witness: the theorem applied to the spec's trailing-slash URL. -/
theorem extractVersionFromURL_doc_and_slash_witness :
    extractVersionFromURL "https://example.org/doc/go1.22" = "go1.22" ∧
    extractVersionFromURL "https://example.org/doc/" = "" :=
  extractVersionFromURL_doc_and_slash "https://example.org/doc/" (by decide)

/-- C6: for every Go int `n ≥ 1`, `generateVersionStrings n` is exactly
`["go1.1", ..., "go1.<n>"]`: length `n`, entry `i` is `"go1.<i+1>"`, no
duplicates, strictly ascending by numeric minor; and
`generateVersionStrings 5` is the spec's example list. -/
theorem generateVersionStrings_spec (n : Nat) (_h1 : 1 ≤ n)
    (h2 : n < 2 ^ 63) :
    (generateVersionStrings n).length = n ∧
    (∀ i, i < n → (generateVersionStrings n)[i]? =
      some ("go1." ++ Nat.repr (i + 1))) ∧
    (generateVersionStrings n).Nodup ∧
    (generateVersionStrings n).Chain'
      (fun a b => parseVersionMinor a < parseVersionMinor b) ∧
    generateVersionStrings 5 = ["go1.1", "go1.2", "go1.3", "go1.4", "go1.5"] := by
  refine ⟨by simp [generateVersionStrings], ?_, ?_, ?_, by decide⟩
  · intro i hi
    simp [generateVersionStrings, List.getElem?_range hi]
  · refine List.Nodup.map_on ?_ (List.nodup_range n)
    intro x _ y _ hxy
    have := repr_injective (go1_append_injective hxy)
    omega
  · apply List.Pairwise.chain'
    apply List.pairwise_map.mpr
    apply List.Pairwise.imp_of_mem ?_ (List.pairwise_lt_range n)
    intro a b ha hb hab
    have ha2 : a + 1 ≤ 2 ^ 63 - 1 := by
      have := List.mem_range.mp ha
      omega
    have hb2 : b + 1 ≤ 2 ^ 63 - 1 := by
      have := List.mem_range.mp hb
      omega
    rw [parseVersionMinor_canon _ ha2, parseVersionMinor_canon _ hb2]
    exact_mod_cast by omega

/-- C6 witness: the theorem applied at `n = 5`. -/
theorem generateVersionStrings_spec_witness :
    (generateVersionStrings 5).length = 5 ∧
    (∀ i, i < 5 → (generateVersionStrings 5)[i]? =
      some ("go1." ++ Nat.repr (i + 1))) ∧
    (generateVersionStrings 5).Nodup ∧
    (generateVersionStrings 5).Chain'
      (fun a b => parseVersionMinor a < parseVersionMinor b) ∧
    generateVersionStrings 5 = ["go1.1", "go1.2", "go1.3", "go1.4", "go1.5"] :=
  generateVersionStrings_spec 5 (by decide) (by decide)

end Gover
